import Mathlib

/-!
Shallow embedding of the Rust library in src/src/r_int.rs: the RInt value
type (a u32 bit pattern interpreted as two's complement), its decimal
parser from_str (an explicit state machine), the renderer to_string, and
the four wrapping arithmetic operators.  Machine integers are modelled as
Nat with explicit reduction modulo 2^32 where the Rust code wraps; the u32
checked operations (checked_mul, checked_add) return Option; operations
that can panic at runtime (wrapping_div on a zero divisor, a plain u32 add
in overflow-checked builds) are modelled with an Option layer whose none
stands for the panic.
-/

namespace RNumeric

/-- 2^32, the modulus of u32 arithmetic. -/
def U32MOD : Nat := 4294967296

/-- The two error variants of enum ParseError in r_int.rs. -/
inductive ParseError where
  | InvalidDigit
  | Overflow
deriving DecidableEq

/-- The parser state machine states, enum State in r_int.rs. -/
inductive State where
  | Start
  | InInteger
  | InFraction
deriving DecidableEq

/-- struct RInt: a 32-bit unsigned storage cell.  The bits field is a Nat;
every constructor of the library keeps it below 2^32. -/
structure RInt where
  bits : Nat
deriving DecidableEq

/-- u32 checked_mul: some product when it fits in 32 bits, none on overflow. -/
def checked_mul (a b : Nat) : Option Nat :=
  if a * b < U32MOD then some (a * b) else none

/-- u32 checked_add: some sum when it fits in 32 bits, none on overflow. -/
def checked_add (a b : Nat) : Option Nat :=
  if a + b < U32MOD then some (a + b) else none

/-- Bitwise complement of a u32 value b (the Rust expression !b). -/
def u32not (b : Nat) : Nat := (U32MOD - 1) - b

/-- The mutable locals of RInt::from_str: current state, accumulated bits,
and the recorded sign. -/
structure ParseSt where
  state : State
  bits : Nat
  is_negative : Bool
deriving DecidableEq

/-- Byte range check for an ASCII digit, the pattern b'0'..=b'9'. -/
def isDigitByte (b : Nat) : Bool := decide (48 ≤ b ∧ b ≤ 57)

/-- The shared digit arm of from_str for (State::Start | State::InInteger,
b'0'..=b'9'): bits = bits.checked_mul(10)? then .checked_add(digit)?,
either failure surfacing ParseError::Overflow. -/
def digitStep (st : ParseSt) (b : Nat) : Except ParseError ParseSt :=
  match checked_mul st.bits 10 with
  | none => Except.error ParseError.Overflow
  | some m =>
    match checked_add m (b - 48) with
    | none => Except.error ParseError.Overflow
    | some v => Except.ok ⟨State.InInteger, v, st.is_negative⟩

/-- One iteration of the match (state, b) in RInt::from_str.  Byte values:
43 is the plus sign, 45 the minus sign, 46 the dot, 48..57 the digits. -/
def stepByte (st : ParseSt) (b : Nat) : Except ParseError ParseSt :=
  match st.state with
  | State.Start =>
    if b = 43 ∨ b = 45 then
      Except.ok ⟨State.InInteger, st.bits, st.is_negative || decide (b = 45)⟩
    else if isDigitByte b then
      digitStep st b
    else
      Except.error ParseError.InvalidDigit
  | State.InInteger =>
    if isDigitByte b then
      digitStep st b
    else if b = 46 then
      Except.ok ⟨State.InFraction, st.bits, st.is_negative⟩
    else
      Except.error ParseError.InvalidDigit
  | State.InFraction =>
    if isDigitByte b then
      Except.ok ⟨State.InFraction, st.bits, st.is_negative⟩
    else
      Except.error ParseError.InvalidDigit

/-- The for loop of RInt::from_str over the input bytes. -/
def from_str_loop : List Nat → ParseSt → Except ParseError ParseSt
  | [], st => Except.ok st
  | b :: rest, st =>
    match stepByte st b with
    | Except.error e => Except.error e
    | Except.ok st2 => from_str_loop rest st2

/-- The initial parser state: Start, bits 0, not negative. -/
def initSt : ParseSt := ⟨State.Start, 0, false⟩

/-- RInt::from_str with the release-profile semantics of the final
negation: !bits + 1 wraps modulo 2^32. -/
def RInt.from_str (s : List Nat) : Except ParseError RInt :=
  match from_str_loop s initSt with
  | Except.error e => Except.error e
  | Except.ok st =>
    if st.is_negative then Except.ok ⟨(u32not st.bits + 1) % U32MOD⟩
    else Except.ok ⟨st.bits⟩

/-- RInt::from_str under overflow-checked (debug and test profile)
semantics of the final negation: the plain u32 add in !bits + 1 panics on
overflow, modelled by the outer none. -/
def RInt.from_str_checked (s : List Nat) : Option (Except ParseError RInt) :=
  match from_str_loop s initSt with
  | Except.error e => some (Except.error e)
  | Except.ok st =>
    if st.is_negative then
      match checked_add (u32not st.bits) 1 with
      | none => none
      | some v => some (Except.ok ⟨v⟩)
    else some (Except.ok ⟨st.bits⟩)

/-- RInt::from_u32: direct construction from a raw bit pattern. -/
def RInt.from_u32 (bits : Nat) : RInt := ⟨bits % U32MOD⟩

/-- impl Add for RInt: u32 wrapping_add on the bits. -/
def RInt.add (a b : RInt) : RInt := ⟨(a.bits + b.bits) % U32MOD⟩

/-- impl Sub for RInt: u32 wrapping_sub on the bits. -/
def RInt.sub (a b : RInt) : RInt := ⟨(a.bits + (U32MOD - b.bits)) % U32MOD⟩

/-- impl Mul for RInt: u32 wrapping_mul on the bits. -/
def RInt.mul (a b : RInt) : RInt := ⟨(a.bits * b.bits) % U32MOD⟩

/-- impl Div for RInt: u32 wrapping_div on the bits.  wrapping_div panics
when the divisor is zero; the none models that panic. -/
def RInt.div (a b : RInt) : Option RInt :=
  if b.bits = 0 then none else some ⟨a.bits / b.bits⟩

/-- RInt::to_string: test the sign bit with bits & 0x8000_0000; if set,
render the two's-complement magnitude !bits + 1 with a minus prefix,
otherwise render the bits directly in decimal. -/
def RInt.to_string (r : RInt) : String :=
  if Nat.land r.bits 2147483648 ≠ 0 then
    "-" ++ toString ((u32not r.bits + 1) % U32MOD)
  else
    toString r.bits

/-- Byte list of an ASCII string, matching s.as_bytes() in from_str. -/
def strBytes (s : String) : List Nat := s.data.map Char.toNat

/-- Decimal value of a digit byte list continuing from accumulator v,
mirroring the bits = bits * 10 + digit accumulation. -/
def digitsValFrom : List Nat → Nat → Nat
  | [], v => v
  | b :: rest, v => digitsValFrom rest (v * 10 + (b - 48))

/-- Decimal value denoted by a digit byte list. -/
def digitsVal (l : List Nat) : Nat := digitsValFrom l 0

/-- All bytes of the list are ASCII digits. -/
def allDigits (l : List Nat) : Bool := l.all isDigitByte

/-- Canonical decimal form of a signed integer: minus sign for negative
values, then the decimal digits of the absolute value.  Follows the wording
of the spec for the round-trip property. -/
def canonicalInt (v : Int) : String :=
  if v < 0 then "-" ++ toString v.natAbs else toString v.natAbs

/-- The grammar of spec section 4.1 as a pure acceptance machine over the
same states, with no overflow accounting: used to state the claim about
which inputs fail with InvalidDigit. -/
def grammarStep (st : State) (b : Nat) : Option State :=
  match st with
  | State.Start =>
    if b = 43 ∨ b = 45 then some State.InInteger
    else if isDigitByte b then some State.InInteger
    else none
  | State.InInteger =>
    if isDigitByte b then some State.InInteger
    else if b = 46 then some State.InFraction
    else none
  | State.InFraction =>
    if isDigitByte b then some State.InFraction
    else none

/-- Run of the pure grammar machine. -/
def grammarRun : List Nat → State → Option State
  | [], st => some st
  | b :: rest, st =>
    match grammarStep st b with
    | none => none
    | some st2 => grammarRun rest st2

/-- A byte list conforms to the parser grammar. -/
def grammarOK (s : List Nat) : Bool := (grammarRun s State.Start).isSome

/-! Helper lemmas about the digit accumulation loop. -/

lemma digitsValFrom_le (l : List Nat) : ∀ v : Nat, v ≤ digitsValFrom l v := by
  induction l with
  | nil => intro v; simp [digitsValFrom]
  | cons b rest ih =>
    intro v
    have h := ih (v * 10 + (b - 48))
    simp only [digitsValFrom]
    omega

lemma digit_not_sign {b : Nat} (hb : isDigitByte b = true) : ¬(b = 43 ∨ b = 45) := by
  simp only [isDigitByte, decide_eq_true_eq] at hb
  omega

lemma stepByte_start_digit (v : Nat) (neg : Bool) {b : Nat} (hb : isDigitByte b = true) :
    stepByte ⟨State.Start, v, neg⟩ b = stepByte ⟨State.InInteger, v, neg⟩ b := by
  simp [stepByte, digit_not_sign hb, hb, digitStep]

lemma digit_step_ok (v : Nat) (neg : Bool) (b : Nat) (hb : isDigitByte b = true)
    (hadd : v * 10 + (b - 48) < U32MOD) :
    stepByte ⟨State.InInteger, v, neg⟩ b =
      Except.ok ⟨State.InInteger, v * 10 + (b - 48), neg⟩ := by
  have hmul : v * 10 < U32MOD := by omega
  have h1 : checked_mul v 10 = some (v * 10) := by simp [checked_mul, hmul]
  have h2 : checked_add (v * 10) (b - 48) = some (v * 10 + (b - 48)) := by
    simp [checked_add, hadd]
  simp [stepByte, hb, digitStep, h1, h2]

lemma loop_digits_ok (l : List Nat) :
    ∀ (v : Nat) (neg : Bool), allDigits l = true → digitsValFrom l v < U32MOD →
    from_str_loop l ⟨State.InInteger, v, neg⟩ =
      Except.ok ⟨State.InInteger, digitsValFrom l v, neg⟩ := by
  induction l with
  | nil => intro v neg _ _; rfl
  | cons b rest ih =>
    intro v neg hall hv
    simp only [allDigits, List.all_cons, Bool.and_eq_true] at hall
    obtain ⟨hb, hrest⟩ := hall
    have hv2 : digitsValFrom (b :: rest) v = digitsValFrom rest (v * 10 + (b - 48)) := by
      simp only [digitsValFrom]
    have hle : v * 10 + (b - 48) ≤ digitsValFrom (b :: rest) v := by
      rw [hv2]; exact digitsValFrom_le rest (v * 10 + (b - 48))
    have hadd : v * 10 + (b - 48) < U32MOD := by omega
    simp only [from_str_loop, digit_step_ok v neg b hb hadd, hv2]
    exact ih (v * 10 + (b - 48)) neg hrest (by omega)

lemma loop_digits_overflow (l : List Nat) :
    ∀ (v : Nat) (neg : Bool), allDigits l = true → v < U32MOD →
    U32MOD ≤ digitsValFrom l v →
    from_str_loop l ⟨State.InInteger, v, neg⟩ = Except.error ParseError.Overflow := by
  induction l with
  | nil =>
    intro v neg _ hv hov
    simp only [digitsValFrom] at hov
    exact absurd hov (by omega)
  | cons b rest ih =>
    intro v neg hall hv hov
    simp only [allDigits, List.all_cons, Bool.and_eq_true] at hall
    obtain ⟨hb, hrest⟩ := hall
    simp only [digitsValFrom] at hov
    by_cases hmul : v * 10 < U32MOD
    · by_cases hadd : v * 10 + (b - 48) < U32MOD
      · simp only [from_str_loop, digit_step_ok v neg b hb hadd]
        exact ih (v * 10 + (b - 48)) neg hrest hadd hov
      · have h1 : checked_mul v 10 = some (v * 10) := by simp [checked_mul, hmul]
        have h2 : checked_add (v * 10) (b - 48) = none := by simp [checked_add, hadd]
        simp [from_str_loop, stepByte, hb, digitStep, h1, h2]
    · have h1 : checked_mul v 10 = none := by simp [checked_mul, hmul]
      simp [from_str_loop, stepByte, hb, digitStep, h1]

lemma loop_start_eq_integer (l : List Nat) (hne : l ≠ []) (hall : allDigits l = true)
    (v : Nat) (neg : Bool) :
    from_str_loop l ⟨State.Start, v, neg⟩ = from_str_loop l ⟨State.InInteger, v, neg⟩ := by
  cases l with
  | nil => exact absurd rfl hne
  | cons b rest =>
    simp only [allDigits, List.all_cons, Bool.and_eq_true] at hall
    simp only [from_str_loop, stepByte_start_digit v neg hall.1]

lemma loop_fraction (l : List Nat) :
    ∀ (v : Nat) (neg : Bool), allDigits l = true →
    from_str_loop l ⟨State.InFraction, v, neg⟩ = Except.ok ⟨State.InFraction, v, neg⟩ := by
  induction l with
  | nil => intro v neg _; rfl
  | cons b rest ih =>
    intro v neg hall
    simp only [allDigits, List.all_cons, Bool.and_eq_true] at hall
    simp only [from_str_loop, stepByte, hall.1, if_true]
    exact ih v neg hall.2

lemma loop_append (l1 l2 : List Nat) (st : ParseSt) :
    from_str_loop (l1 ++ l2) st =
      match from_str_loop l1 st with
      | Except.error e => Except.error e
      | Except.ok st2 => from_str_loop l2 st2 := by
  induction l1 generalizing st with
  | nil => rfl
  | cons b rest ih =>
    simp only [List.cons_append, from_str_loop]
    cases stepByte st b with
    | error e => rfl
    | ok st2 => exact ih st2

/-- Dot then digits from InInteger: lands in InFraction with bits untouched. -/
lemma loop_fracpart (fp : List Nat) (v : Nat) (neg : Bool)
    (hfp : fp = [] ∨ ∃ f, fp = 46 :: f ∧ allDigits f = true) :
    ∃ stF, from_str_loop fp ⟨State.InInteger, v, neg⟩ = Except.ok ⟨stF, v, neg⟩ := by
  rcases hfp with rfl | ⟨f, rfl, hf⟩
  · exact ⟨State.InInteger, rfl⟩
  · refine ⟨State.InFraction, ?_⟩
    have hdot : stepByte ⟨State.InInteger, v, neg⟩ 46 =
        Except.ok ⟨State.InFraction, v, neg⟩ := by
      simp [stepByte, isDigitByte]
    simp only [from_str_loop, hdot]
    exact loop_fraction f v neg hf

/-- Core parsing fact: optional sign, digits, optional fractional part
accumulate exactly the digit value, recording the sign. -/
lemma parse_core (sg d fp : List Nat)
    (hsg : sg = [] ∨ sg = [43] ∨ sg = [45])
    (hne : sg ≠ [] ∨ d ≠ []) (hall : allDigits d = true)
    (hfp : fp = [] ∨ ∃ f, fp = 46 :: f ∧ allDigits f = true)
    (hm : digitsVal d < U32MOD) :
    ∃ stF, from_str_loop (sg ++ (d ++ fp)) initSt =
      Except.ok ⟨stF, digitsVal d, decide (sg = [45])⟩ := by
  rcases hsg with rfl | rfl | rfl
  · have hd : d ≠ [] := by tauto
    obtain ⟨stF, hF⟩ := loop_fracpart fp (digitsVal d) false hfp
    refine ⟨stF, ?_⟩
    rw [List.nil_append, loop_append]
    rw [show initSt = ⟨State.Start, 0, false⟩ from rfl,
      loop_start_eq_integer d hd hall 0 false, loop_digits_ok d 0 false hall hm]
    simpa using hF
  · obtain ⟨stF, hF⟩ := loop_fracpart fp (digitsVal d) false hfp
    refine ⟨stF, ?_⟩
    have h1 : from_str_loop ([43] ++ (d ++ fp)) initSt =
        from_str_loop (d ++ fp) ⟨State.InInteger, 0, false⟩ := by
      simp [from_str_loop, stepByte, initSt]
    rw [h1, loop_append, loop_digits_ok d 0 false hall hm]
    simpa using hF
  · obtain ⟨stF, hF⟩ := loop_fracpart fp (digitsVal d) true hfp
    refine ⟨stF, ?_⟩
    have h1 : from_str_loop ([45] ++ (d ++ fp)) initSt =
        from_str_loop (d ++ fp) ⟨State.InInteger, 0, true⟩ := by
      simp [from_str_loop, stepByte, initSt]
    rw [h1, loop_append, loop_digits_ok d 0 true hall hm]
    simpa using hF

/-! Helper lemmas about the renderer. -/

lemma land_sign_bit (b : Nat) :
    Nat.land b 2147483648 = if b.testBit 31 then 2147483648 else 0 := by
  have h31 : (2147483648 : Nat) = 2 ^ 31 := by norm_num
  apply Nat.eq_of_testBit_eq
  intro i
  rw [show Nat.land b 2147483648 = b &&& 2147483648 from rfl, Nat.testBit_land]
  by_cases hi : i = 31
  · subst hi
    by_cases hb : b.testBit 31 <;> simp [hb, h31, Nat.testBit_two_pow]
  · have h1 : Nat.testBit 2147483648 i = false := by
      rw [h31, Nat.testBit_two_pow]
      simp [Ne.symm hi]
    by_cases hb : b.testBit 31 <;> simp [hb, h1, hi]

lemma testBit31_iff (b : Nat) (h : b < U32MOD) : b.testBit 31 = true ↔ 2147483648 ≤ b := by
  rw [Nat.testBit_to_div_mod]
  have h2 : (2 : Nat) ^ 31 = 2147483648 := by norm_num
  rw [h2]
  simp only [decide_eq_true_eq]
  unfold U32MOD at h
  omega

lemma testBit31_false (b : Nat) (h : b < 2147483648) : b.testBit 31 = false := by
  rw [Nat.testBit_to_div_mod]
  have h2 : (2 : Nat) ^ 31 = 2147483648 := by norm_num
  rw [h2]
  simp only [decide_eq_false_iff_not]
  omega

/-- Renderer on a clear sign bit: plain unsigned decimal. -/
lemma to_string_pos (b : Nat) (h : b < 2147483648) :
    RInt.to_string ⟨b⟩ = toString b := by
  have hland : Nat.land b 2147483648 = 0 := by
    rw [land_sign_bit, testBit31_false b h]
    rfl
  simp [RInt.to_string, hland]

/-- Renderer on a set sign bit: minus sign, then the decimal of the
two's-complement magnitude, which for b in the u32 range is 2^32 - b. -/
lemma to_string_neg (b : Nat) (h1 : 2147483648 ≤ b) (h2 : b < U32MOD) :
    RInt.to_string ⟨b⟩ = "-" ++ toString (U32MOD - b) := by
  have hbit : b.testBit 31 = true := (testBit31_iff b h2).mpr h1
  have hland : Nat.land b 2147483648 = 2147483648 := by
    rw [land_sign_bit, hbit]
    rfl
  have hval : (u32not b + 1) % U32MOD = U32MOD - b := by
    have hU : U32MOD = 4294967296 := rfl
    unfold u32not
    have he : (U32MOD - 1 - b) + 1 = U32MOD - b := by omega
    rw [he]
    apply Nat.mod_eq_of_lt
    omega
  simp only [RInt.to_string, hland]
  rw [if_pos (by norm_num), hval]

/-! Lockstep of the parser with the pure grammar machine. -/

lemma isDigitByte_46 : isDigitByte 46 = false := rfl

lemma digitStep_cases (st : ParseSt) (b : Nat) :
    digitStep st b = Except.error ParseError.Overflow ∨
    ∃ v, digitStep st b = Except.ok ⟨State.InInteger, v, st.is_negative⟩ := by
  cases hm : checked_mul st.bits 10 with
  | none => exact Or.inl (by simp [digitStep, hm])
  | some m =>
    cases ha : checked_add m (b - 48) with
    | none => exact Or.inl (by simp [digitStep, hm, ha])
    | some v => exact Or.inr ⟨v, by simp [digitStep, hm, ha]⟩

lemma digitStep_not_invalid (st : ParseSt) (b : Nat) :
    digitStep st b ≠ Except.error ParseError.InvalidDigit := by
  rcases digitStep_cases st b with h | ⟨v, h⟩ <;> simp [h]

lemma stepByte_grammar_ok (st : ParseSt) (b : Nat) (st2 : ParseSt)
    (h : stepByte st b = Except.ok st2) : grammarStep st.state b = some st2.state := by
  cases hst : st.state with
  | Start =>
    by_cases hsgn : b = 43 ∨ b = 45
    · simp only [stepByte, hst, if_pos hsgn, Except.ok.injEq] at h
      subst h
      simp [grammarStep, hsgn]
    · by_cases hd : isDigitByte b
      · simp only [stepByte, hst, if_neg hsgn, hd, if_true] at h
        rcases digitStep_cases st b with hc | ⟨v, hc⟩
        · rw [hc] at h; exact absurd h (by simp)
        · rw [hc] at h
          simp only [Except.ok.injEq] at h
          subst h
          simp [grammarStep, hsgn, hd]
      · simp only [stepByte, hst, if_neg hsgn, hd] at h
        exact absurd h (by simp)
  | InInteger =>
    by_cases hd : isDigitByte b
    · simp only [stepByte, hst, hd, if_true] at h
      rcases digitStep_cases st b with hc | ⟨v, hc⟩
      · rw [hc] at h; exact absurd h (by simp)
      · rw [hc] at h
        simp only [Except.ok.injEq] at h
        subst h
        simp [grammarStep, hd]
    · by_cases hdot : b = 46
      · simp only [stepByte, hst, hd, hdot, isDigitByte_46, Bool.false_eq_true, if_false,
          if_true, Except.ok.injEq] at h
        subst h
        simp [grammarStep, hst, hd, hdot, isDigitByte_46]
      · simp only [stepByte, hst, hd, hdot, if_false] at h
        exact absurd h (by simp)
  | InFraction =>
    by_cases hd : isDigitByte b
    · simp only [stepByte, hst, hd, if_true, Except.ok.injEq] at h
      subst h
      simp [grammarStep, hd]
    · simp only [stepByte, hst, hd, if_false] at h
      exact absurd h (by simp)

lemma stepByte_invalid_iff (st : ParseSt) (b : Nat) :
    stepByte st b = Except.error ParseError.InvalidDigit ↔
      grammarStep st.state b = none := by
  cases hst : st.state with
  | Start =>
    by_cases hsgn : b = 43 ∨ b = 45
    · simp [stepByte, grammarStep, hst, hsgn]
    · by_cases hd : isDigitByte b
      · simp [stepByte, grammarStep, hst, hsgn, hd, digitStep_not_invalid st b]
      · simp [stepByte, grammarStep, hst, hsgn, hd]
  | InInteger =>
    by_cases hd : isDigitByte b
    · simp [stepByte, grammarStep, hst, hd, digitStep_not_invalid st b]
    · by_cases hdot : b = 46
      · subst hdot
        simp [stepByte, grammarStep, hst, isDigitByte_46]
      · simp [stepByte, grammarStep, hst, hd, hdot]
  | InFraction =>
    by_cases hd : isDigitByte b <;> simp [stepByte, grammarStep, hst, hd]

lemma loop_invalid_to_grammar (l : List Nat) :
    ∀ st : ParseSt, from_str_loop l st = Except.error ParseError.InvalidDigit →
    grammarRun l st.state = none := by
  induction l with
  | nil => intro st h; exact absurd h (by simp [from_str_loop])
  | cons b rest ih =>
    intro st h
    rw [from_str_loop] at h
    cases hs : stepByte st b with
    | error e =>
      rw [hs] at h
      simp only [Except.error.injEq] at h
      subst h
      rw [grammarRun, (stepByte_invalid_iff st b).mp hs]
    | ok st2 =>
      rw [hs] at h
      rw [grammarRun, stepByte_grammar_ok st b st2 hs]
      exact ih st2 h

lemma grammar_none_to_loop (l : List Nat) :
    ∀ st : ParseSt, grammarRun l st.state = none →
    from_str_loop l st = Except.error ParseError.InvalidDigit ∨
    from_str_loop l st = Except.error ParseError.Overflow := by
  induction l with
  | nil => intro st h; exact absurd h (by simp [grammarRun])
  | cons b rest ih =>
    intro st h
    cases hs : stepByte st b with
    | error e =>
      cases e with
      | InvalidDigit => exact Or.inl (by rw [from_str_loop, hs])
      | Overflow => exact Or.inr (by rw [from_str_loop, hs])
    | ok st2 =>
      rw [grammarRun, stepByte_grammar_ok st b st2 hs] at h
      rcases ih st2 h with h2 | h2
      · exact Or.inl (by rw [from_str_loop, hs]; exact h2)
      · exact Or.inr (by rw [from_str_loop, hs]; exact h2)

/-! Per-claim theorems. -/

/-- Helper: from_str surfaces exactly the loop's error. -/
lemma from_str_error_iff (s : List Nat) (e : ParseError) :
    RInt.from_str s = Except.error e ↔ from_str_loop s initSt = Except.error e := by
  rw [RInt.from_str]
  cases hl : from_str_loop s initSt with
  | error e2 => simp
  | ok st => by_cases hn : st.is_negative <;> simp [hn]

/-- Claim C2: the parser checks the accumulated magnitude against the
unsigned 32-bit range: a digit string parses successfully to its magnitude
exactly when the magnitude is at most 2^32 - 1, and fails with Overflow
exactly when the checked accumulation would exceed it; 4294967296 fails
with Overflow, 4294967295 succeeds storing the all-ones pattern. -/
theorem c2_unsigned_range :
    (∀ d : List Nat, allDigits d = true →
      (digitsVal d < U32MOD → RInt.from_str d = Except.ok ⟨digitsVal d⟩) ∧
      (U32MOD ≤ digitsVal d → RInt.from_str d = Except.error ParseError.Overflow)) ∧
    RInt.from_str (strBytes "4294967296") = Except.error ParseError.Overflow ∧
    RInt.from_str (strBytes "4294967295") = Except.ok ⟨4294967295⟩ := by
  refine ⟨?_, rfl, rfl⟩
  intro d hall
  constructor
  · intro hm
    cases d with
    | nil => rfl
    | cons b rest =>
      have hloop := loop_digits_ok (b :: rest) 0 false hall hm
      have hstart : from_str_loop (b :: rest) initSt =
          Except.ok ⟨State.InInteger, digitsVal (b :: rest), false⟩ := by
        rw [show initSt = (⟨State.Start, 0, false⟩ : ParseSt) from rfl,
          loop_start_eq_integer (b :: rest) (by simp) hall 0 false]
        exact hloop
      rw [RInt.from_str, hstart]
      rfl
  · intro hm
    cases d with
    | nil => exact absurd hm (by decide)
    | cons b rest =>
      have hloop := loop_digits_overflow (b :: rest) 0 false hall (by decide) hm
      have hstart : from_str_loop (b :: rest) initSt = Except.error ParseError.Overflow := by
        rw [show initSt = (⟨State.Start, 0, false⟩ : ParseSt) from rfl,
          loop_start_eq_integer (b :: rest) (by simp) hall 0 false]
        exact hloop
      rw [RInt.from_str, hstart]

/-- Witness for C2 at the digit string 53 (ASCII for 5). -/
theorem c2_unsigned_range_wit : RInt.from_str [53] = Except.ok ⟨5⟩ :=
  (c2_unsigned_range.1 [53] (by decide)).1 (by decide)

/-- Claim C3: with nonzero divisor bits, division returns the unsigned
32-bit quotient of the stored bits; the stored pattern of -8 (0xFFFFFFF8)
divided by 2 gives 0x7FFFFFFC, its large unsigned quotient, and not
0xFFFFFFFC, the pattern signed division would give. -/
theorem c3_div_unsigned :
    (∀ a b : RInt, b.bits ≠ 0 → RInt.div a b = some ⟨a.bits / b.bits⟩) ∧
    RInt.div (RInt.from_u32 4294967288) (RInt.from_u32 2) = some ⟨2147483644⟩ ∧
    (2147483644 : Nat) ≠ 4294967292 := by
  refine ⟨?_, rfl, by norm_num⟩
  intro a b hb
  simp [RInt.div, hb]

/-- Witness for C3 at 13 divided by 5. -/
theorem c3_div_unsigned_wit : RInt.div ⟨13⟩ ⟨5⟩ = some ⟨2⟩ :=
  c3_div_unsigned.1 ⟨13⟩ ⟨5⟩ (by decide)

/-- Claim C4 counterexample: division applied to a zero divisor does not
return a value; u32 wrapping_div panics when the divisor is zero. -/
theorem c4_div_zero_cex : RInt.div (RInt.from_u32 1) (RInt.from_u32 0) = none := rfl

/-- Claim C4 (amended): add, subtract and multiply are total functions of
their operands; division yields a value exactly when the divisor's stored
bits are nonzero, and traps on a zero divisor. -/
theorem c4_div_amended : ∀ a b : RInt, (RInt.div a b).isSome = true ↔ b.bits ≠ 0 := by
  intro a b
  by_cases hb : b.bits = 0 <;> simp [RInt.div, hb]

/-- Witness for C4 (amended) at 13 divided by 5. -/
theorem c4_div_amended_wit : (RInt.div ⟨13⟩ ⟨5⟩).isSome = true :=
  (c4_div_amended ⟨13⟩ ⟨5⟩).mpr (by decide)

/-- Claim C5 (code bug at magnitude zero): when a negative sign was
recorded and the accumulated magnitude is zero, the final negation
complement-plus-one overflows u32, so under overflow-checked (debug and
test) build semantics from_str traps on the inputs -0 and a bare minus
sign instead of returning a value; with overflow checks disabled the add
wraps and from_str returns the zero pattern. -/
theorem c5_negation_trap :
    RInt.from_str_checked (strBytes "-0") = none ∧
    RInt.from_str_checked (strBytes "-") = none ∧
    RInt.from_str (strBytes "-0") = Except.ok ⟨0⟩ ∧
    RInt.from_str (strBytes "-") = Except.ok ⟨0⟩ :=
  ⟨rfl, rfl, rfl, rfl⟩

/-- Claim C6: add, subtract and multiply combine the operands' bits
modulo 2^32: add and mul literally, and sub as integer difference reduced
modulo 2^32; all-ones plus one wraps to zero, and 0x7FFFFFFF plus one
gives 0x80000000. -/
theorem c6_wrapping_ops :
    (∀ a b : RInt, (RInt.add a b).bits = (a.bits + b.bits) % U32MOD ∧
      (RInt.mul a b).bits = (a.bits * b.bits) % U32MOD ∧
      (a.bits < U32MOD → b.bits < U32MOD →
        ((RInt.sub a b).bits : Int) = ((a.bits : Int) - (b.bits : Int)) % (U32MOD : Int))) ∧
    RInt.add (RInt.from_u32 4294967295) (RInt.from_u32 1) = ⟨0⟩ ∧
    RInt.add (RInt.from_u32 2147483647) (RInt.from_u32 1) = ⟨2147483648⟩ ∧
    RInt.from_str (strBytes "1") = Except.ok (RInt.from_u32 1) := by
  refine ⟨?_, rfl, rfl, rfl⟩
  intro a b
  refine ⟨rfl, rfl, ?_⟩
  intro ha hb
  simp only [RInt.sub]
  have hU : U32MOD = 4294967296 := rfl
  rw [hU] at ha hb ⊢
  omega

/-- Witness for C6 at the bit patterns 5 and 13. -/
theorem c6_wrapping_ops_wit : ((RInt.sub ⟨5⟩ ⟨13⟩).bits : Int) =
    (((5 : Nat) : Int) - ((13 : Nat) : Int)) % (U32MOD : Int) :=
  ((c6_wrapping_ops.1 ⟨5⟩ ⟨13⟩).2.2 (by decide) (by decide))

/-- Claim C8: to_string is total over the 2^32 bit patterns: with the
most significant bit set it renders a minus sign followed by the decimal
of the complement-plus-one magnitude 2^32 - b, otherwise the bits as an
unsigned decimal; for 0x80000000 the complement-plus-one reproduces the
same pattern and the output is -2147483648. -/
theorem c8_to_string_total :
    (∀ b : Nat, b < U32MOD →
      (2147483648 ≤ b → RInt.to_string ⟨b⟩ = "-" ++ toString (U32MOD - b)) ∧
      (b < 2147483648 → RInt.to_string ⟨b⟩ = toString b)) ∧
    (u32not 2147483648 + 1) % U32MOD = 2147483648 ∧
    RInt.to_string ⟨2147483648⟩ = "-2147483648" := by
  refine ⟨?_, rfl, rfl⟩
  intro b hb
  exact ⟨fun h => to_string_neg b h hb, fun h => to_string_pos b h⟩

/-- Witness for C8 at the stored pattern of -5. -/
theorem c8_to_string_total_wit :
    RInt.to_string ⟨4294967291⟩ = "-" ++ toString (U32MOD - 4294967291) :=
  (c8_to_string_total.1 4294967291 (by decide)).1 (by decide)

/-- Claim C10: the parser requires no digits: a bare plus sign and the
empty string both parse to the zero pattern, and a trailing decimal point
is accepted, 5. parsing like 5. -/
theorem c10_no_digits_needed :
    RInt.from_str (strBytes "+") = Except.ok ⟨0⟩ ∧
    RInt.from_str (strBytes "") = Except.ok ⟨0⟩ ∧
    RInt.from_str (strBytes "5.") = Except.ok ⟨5⟩ ∧
    RInt.from_str (strBytes "5.") = RInt.from_str (strBytes "5") :=
  ⟨rfl, rfl, rfl, rfl⟩

/-- Claim C9: fractional digits are accepted but numerically ignored:
appending a dot and any digit string to an integer string leaves the
parsed value unchanged; 5.999 parses like 5. -/
theorem c9_fraction_ignored :
    (∀ (sg d f : List Nat),
      (sg = [] ∨ sg = [43] ∨ sg = [45]) →
      (sg ≠ [] ∨ d ≠ []) →
      allDigits d = true → allDigits f = true →
      digitsVal d < U32MOD →
      RInt.from_str (sg ++ d ++ (46 :: f)) = RInt.from_str (sg ++ d)) ∧
    RInt.from_str (strBytes "5.999") = RInt.from_str (strBytes "5") := by
  refine ⟨?_, rfl⟩
  intro sg d f hsg hne hd hf hm
  obtain ⟨stF, hF⟩ := parse_core sg d (46 :: f) hsg hne hd (Or.inr ⟨f, rfl, hf⟩) hm
  obtain ⟨stF2, hF2⟩ := parse_core sg d [] hsg hne hd (Or.inl rfl) hm
  have h1 : sg ++ d ++ (46 :: f) = sg ++ (d ++ (46 :: f)) := by simp
  have h2 : sg ++ d = sg ++ (d ++ []) := by simp
  rw [h1, RInt.from_str, hF, h2, RInt.from_str, hF2]

/-- Witness for C9 at the bytes of 5.999 split into parts. -/
theorem c9_fraction_ignored_wit :
    RInt.from_str ([] ++ [53] ++ (46 :: [57, 57, 57])) = RInt.from_str ([] ++ [53]) :=
  c9_fraction_ignored.1 [] [53] [57, 57, 57] (Or.inl rfl) (Or.inr (by decide))
    (by decide) (by decide) (by decide)

/-- Claim C7 counterexample: the input 4294967296x contains a byte that
does not match the grammar (the x), yet from_str fails with Overflow, not
InvalidDigit, because the checked accumulation overflows first. -/
theorem c7_overflow_cex :
    grammarOK (strBytes "4294967296x") = false ∧
    RInt.from_str (strBytes "4294967296x") = Except.error ParseError.Overflow ∧
    RInt.from_str (strBytes "4294967296x") ≠ Except.error ParseError.InvalidDigit := by
  refine ⟨by decide, rfl, ?_⟩
  rw [show RInt.from_str (strBytes "4294967296x") = Except.error ParseError.Overflow
    from rfl]
  simp

/-- Claim C7 (amended): from_str fails with InvalidDigit exactly on inputs
that violate the state-machine grammar and on which the checked
accumulation does not overflow first; abc and 12-3 both fail with
InvalidDigit. -/
theorem c7_invalid_amended :
    (∀ s : List Nat,
      RInt.from_str s = Except.error ParseError.InvalidDigit ↔
        (grammarOK s = false ∧ RInt.from_str s ≠ Except.error ParseError.Overflow)) ∧
    RInt.from_str (strBytes "abc") = Except.error ParseError.InvalidDigit ∧
    RInt.from_str (strBytes "12-3") = Except.error ParseError.InvalidDigit := by
  refine ⟨?_, rfl, rfl⟩
  intro s
  constructor
  · intro h
    have hloop : from_str_loop s initSt = Except.error ParseError.InvalidDigit :=
      (from_str_error_iff s ParseError.InvalidDigit).mp h
    have hg : grammarRun s State.Start = none := loop_invalid_to_grammar s initSt hloop
    refine ⟨by simp [grammarOK, hg], ?_⟩
    rw [h]
    simp
  · rintro ⟨hg, hnov⟩
    have hrun : grammarRun s State.Start = none := by
      rcases hr : grammarRun s State.Start with _ | st2
      · rfl
      · rw [grammarOK, hr] at hg
        exact absurd hg (by simp)
    rcases grammar_none_to_loop s initSt hrun with hl | hl
    · exact (from_str_error_iff s ParseError.InvalidDigit).mpr hl
    · exact absurd ((from_str_error_iff s ParseError.Overflow).mpr hl) hnov

/-- Witness for C7 at the input abc. -/
theorem c7_invalid_amended_wit :
    RInt.from_str (strBytes "abc") ≠ Except.error ParseError.Overflow :=
  ((c7_invalid_amended.1 (strBytes "abc")).mp c7_invalid_amended.2.1).2

/-- Claim C1: for valid non-overflowing decimal strings (optional sign,
then digits, then an optional fractional part) whose signed value fits
the 32-bit two's-complement range, rendering the parsed value reproduces
the canonical decimal form of the value; 5 parses to pattern 0x00000005,
-5 to 0xFFFFFFFB, and the latter renders back as -5. -/
theorem c1_round_trip :
    (∀ (sg d fp : List Nat) (v : Int),
      (sg = [] ∨ sg = [43] ∨ sg = [45]) →
      d ≠ [] → allDigits d = true →
      (fp = [] ∨ ∃ f, fp = 46 :: f ∧ allDigits f = true) →
      v = (if sg = [45] then -(digitsVal d : Int) else (digitsVal d : Int)) →
      -(2147483648 : Int) ≤ v → v ≤ 2147483647 →
      Except.map RInt.to_string (RInt.from_str (sg ++ d ++ fp)) =
        Except.ok (canonicalInt v)) ∧
    RInt.from_str (strBytes "5") = Except.ok ⟨5⟩ ∧
    RInt.from_str (strBytes "-5") = Except.ok ⟨4294967291⟩ ∧
    RInt.to_string ⟨4294967291⟩ = "-5" := by
  refine ⟨?_, rfl, rfl, rfl⟩
  intro sg d fp v hsg hd hall hfp hv h1 h2
  have happ : sg ++ d ++ fp = sg ++ (d ++ fp) := by simp
  by_cases hneg : sg = [45]
  · subst hneg
    rw [if_pos rfl] at hv
    subst hv
    have hm31 : digitsVal d ≤ 2147483648 := by omega
    have hmU : digitsVal d < U32MOD := by
      have hlt : (2147483648 : Nat) < U32MOD := by decide
      omega
    obtain ⟨stF, hF⟩ :=
      parse_core [45] d fp (Or.inr (Or.inr rfl)) (Or.inr hd) hall hfp hmU
    rw [happ, RInt.from_str, hF]
    rw [show decide (([45] : List Nat) = [45]) = true from rfl]
    show Except.ok (RInt.to_string ⟨(u32not (digitsVal d) + 1) % U32MOD⟩) =
      Except.ok (canonicalInt (-(digitsVal d : Int)))
    rcases Nat.eq_zero_or_pos (digitsVal d) with hm0 | hm1
    · rw [hm0]
      rfl
    · have hbits : (u32not (digitsVal d) + 1) % U32MOD = U32MOD - digitsVal d := by
        simp only [u32not, U32MOD] at *
        omega
      rw [hbits, to_string_neg (U32MOD - digitsVal d)
        (by simp only [U32MOD] at *; omega) (by simp only [U32MOD] at *; omega)]
      have hmm : U32MOD - (U32MOD - digitsVal d) = digitsVal d := by
        simp only [U32MOD] at *
        omega
      rw [hmm]
      have hvneg : -((digitsVal d : Nat) : Int) < 0 := by omega
      rw [canonicalInt, if_pos hvneg]
      simp [Int.natAbs_neg]
  · rw [if_neg hneg] at hv
    subst hv
    have hm31 : digitsVal d ≤ 2147483647 := by omega
    have hmU : digitsVal d < U32MOD := by
      simp only [U32MOD] at *
      omega
    obtain ⟨stF, hF⟩ := parse_core sg d fp hsg (Or.inr hd) hall hfp hmU
    rw [happ, RInt.from_str, hF]
    rw [show decide (sg = [45]) = false from decide_eq_false hneg]
    show Except.ok (RInt.to_string ⟨digitsVal d⟩) =
      Except.ok (canonicalInt (digitsVal d : Int))
    rw [to_string_pos (digitsVal d) (by omega)]
    rw [canonicalInt, if_neg (by omega)]
    simp

/-- Witness for C1 at the input -5 given as sign and digit bytes. -/
theorem c1_round_trip_wit :
    Except.map RInt.to_string (RInt.from_str ([45] ++ [53] ++ [])) =
      Except.ok (canonicalInt (-5)) :=
  c1_round_trip.1 [45] [53] [] (-5) (Or.inr (Or.inr rfl)) (by decide) (by decide)
    (Or.inl rfl) (by decide) (by decide) (by decide)

end RNumeric
